import Mathlib

/-!
Verification development for the gotree library: a shallow embedding of the
sharded map (map.go), the node record (types.go) and the tree operations
(tree.go) of the Tochemey/gotree repository, together with theorems settling
the specification claims about them.

Modelling conventions:
* Go machine integers are modelled as `Nat`/`Int` with explicit `% 2 ^ 64`
  where overflow matters; the `uint → int` conversion of `ParentAt` is made
  explicit in `intOfUint64`.
* The heap of `*treeNode` pointers is modelled as a list of records addressed
  by position (`Nat` refs); Go pointer mutation becomes an update of the
  record at that position, which makes pointer aliasing explicit.
* Run-time panics (nil-pointer dereference, out-of-range slice index) are
  modelled with `Except RuntimeErr`.
* `sync.Pool` is modelled as a LIFO stack of refs: `Put` pushes, `Get` pops,
  and `Get` on an empty pool calls the `New` function (fresh allocation).
  sync.Pool gives no ordering guarantee; the stack is one admissible,
  deterministic behaviour of it.
* The `safeSlice` child collection's source file is not part of the sources
  provided; it is modelled from the spec ("an ordered, append/delete-by-index
  collection", §4.2) as a `List` where `Append` appends, `Delete i` removes
  the element at index `i` (no effect when out of range), `Items` snapshots
  the contents and `Reset` clears the collection.
* Go's built-in `map[string]any` inside a shard is modelled as an association
  list up to lookup equivalence; Go iteration order over a map is unspecified,
  so the entry order of the model is an admissible choice.
-/

set_option maxRecDepth 4000

namespace Gotree

instance [DecidableEq ε] [DecidableEq α] : DecidableEq (Except ε α) := fun a b =>
  match a, b with
  | .ok x, .ok y =>
    if h : x = y then .isTrue (by rw [h]) else .isFalse (by simp [h])
  | .error x, .error y =>
    if h : x = y then .isTrue (by rw [h]) else .isFalse (by simp [h])
  | .ok _, .error _ => .isFalse (by simp)
  | .error _, .ok _ => .isFalse (by simp)

/-- Run-time panics that the Go code can hit. -/
inductive RuntimeErr where
  | nilPointer
  | indexOutOfRange
deriving DecidableEq, Repr

/-- The three error values of errors.go. -/
inductive TError where
  | invalidOperation
  | parentNodeNotFound
  | notFound
deriving DecidableEq, Repr

/-- A user node: the implementation of the `Node[T]` interface of node.go
(`ID() string`, `Value() T`), as the test's `newTestNode` builds it. -/
structure Node (V : Type) where
  id : String
  val : V
deriving DecidableEq, Repr

/-! ## Sharded map (map.go) -/

/-- UTF-8 bytes of a character, as Go's `[]byte(key)` produces them. -/
def charUtf8 (c : Char) : List Nat :=
  let n := c.toNat
  if n < 0x80 then [n]
  else if n < 0x800 then
    [0xC0 ||| (n >>> 6), 0x80 ||| (n &&& 0x3F)]
  else if n < 0x10000 then
    [0xE0 ||| (n >>> 12), 0x80 ||| ((n >>> 6) &&& 0x3F), 0x80 ||| (n &&& 0x3F)]
  else
    [0xF0 ||| (n >>> 18), 0x80 ||| ((n >>> 12) &&& 0x3F),
     0x80 ||| ((n >>> 6) &&& 0x3F), 0x80 ||| (n &&& 0x3F)]

/-- One FNV-1 64-bit step: multiply by the prime, then xor the byte
(all mod 2^64, as Go's `hash/fnv` does on `uint64`). -/
def fnv64Step (h b : Nat) : Nat := ((h * 1099511628211) % (2 ^ 64)) ^^^ b

/-- map.go `fnv64`: the FNV-1 64-bit hash of the key's UTF-8 bytes. -/
def fnv64 (key : String) : Nat :=
  (key.data.flatMap charUtf8).foldl fnv64Step 14695981039346656037

/-- map.go `ShardedMap`: a slice of shards, each one an independently locked
`map[string]any`.  The lock itself has no observable sequential effect; each
shard is its map. -/
structure ShardedMap (α : Type) where
  shards : List (List (String × α))
deriving DecidableEq, Repr

/-- Lookup in one shard's map. -/
def shardLoad (sh : List (String × α)) (k : String) : Option α :=
  (sh.find? (fun p => p.1 == k)).map (·.2)

/-- Deletion from one shard's map (`delete(shard.m, key)`). -/
def shardDelete (sh : List (String × α)) (k : String) : List (String × α) :=
  sh.filter (fun p => !(p.1 == k))

/-- Assignment `shard.m[key] = value`: in the association-list model, the new
binding replaces any old one for the key. -/
def shardStore (sh : List (String × α)) (k : String) (v : α) : List (String × α) :=
  (k, v) :: shardDelete sh k

/-- map.go `NewShardedMap`. -/
def NewShardedMap (α : Type) (shardsCount : Nat) : ShardedMap α :=
  ⟨List.replicate shardsCount []⟩

/-- map.go `getShard`, reduced to the shard index: `fnv64(key) % len(s)`. -/
def ShardedMap.getShardIdx (s : ShardedMap α) (key : String) : Nat :=
  fnv64 key % s.shards.length

/-- map.go `Load`. -/
def ShardedMap.Load (s : ShardedMap α) (key : String) : Option α :=
  shardLoad (s.shards.getD (s.getShardIdx key) []) key

/-- map.go `Store`. -/
def ShardedMap.Store (s : ShardedMap α) (key : String) (v : α) : ShardedMap α :=
  ⟨s.shards.set (s.getShardIdx key)
      (shardStore (s.shards.getD (s.getShardIdx key) []) key v)⟩

/-- map.go `Delete`. -/
def ShardedMap.Delete (s : ShardedMap α) (key : String) : ShardedMap α :=
  ⟨s.shards.set (s.getShardIdx key)
      (shardDelete (s.shards.getD (s.getShardIdx key) []) key)⟩

/-- map.go `Range`, reduced to the visited entries: every entry of every
shard, shard by shard. -/
def ShardedMap.entries (s : ShardedMap α) : List (String × α) :=
  s.shards.flatten

/-- map.go `Reset`: every shard gets a fresh empty map. -/
def ShardedMap.Reset (s : ShardedMap α) : ShardedMap α :=
  ⟨s.shards.map (fun _ => [])⟩

/-! ## Node record (types.go) -/

/-- types.go `treeNode`: identifier, atomically swappable value slot
(`atomic.Pointer[value[T]]`, `none` = nil pointer), and the `safeSlice` of
child refs. -/
structure NodeRecord (V : Type) where
  ID : String
  Value : Option (Node V)
  Descendants : List Nat
deriving DecidableEq, Repr

/-- types.go `GetValue`: loads the value pointer and returns its data;
dereferencing a nil value pointer panics. -/
def NodeRecord.GetValue (r : NodeRecord V) : Except RuntimeErr (Node V) :=
  match r.Value with
  | some u => .ok u
  | none => .error .nilPointer

/-! ## Tree state (tree.go) -/

/-- tree.go `Tree`: the two sharded indexes, the heap of `treeNode` records,
the node pool, the size counter and the root reference.  The `valuesPool` has
no observable effect (a pooled `value[T]` wrapper's field is always
overwritten before use) and is not modelled. -/
structure Tree (V : Type) where
  nodes : ShardedMap Nat
  parents : ShardedMap (List String)
  heap : List (NodeRecord V)
  nodesPool : List Nat
  size : Int
  rootNode : Option Nat
deriving DecidableEq, Repr

/-- tree.go `NewTree`: both indexes with 64 shards, empty pool, no root. -/
def NewTree (V : Type) : Tree V :=
  { nodes := NewShardedMap Nat 64
    parents := NewShardedMap (List String) 64
    heap := []
    nodesPool := []
    size := 0
    rootNode := none }

/-- Update the record at ref `i` of a heap (a write through a `*treeNode`). -/
def heapSet (h : List (NodeRecord V)) (i : Nat) (f : NodeRecord V → NodeRecord V) :
    List (NodeRecord V) :=
  match h[i]? with
  | some r => h.set i (f r)
  | none => h

/-- tree.go `getNode`: index lookup followed by the (always successful)
type assertion; the ref is kept so that later writes through the returned
pointer can be expressed. -/
def Tree.getNode (t : Tree V) (id : String) : Option (Nat × NodeRecord V) :=
  match t.nodes.Load id with
  | none => none
  | some ref =>
    match t.heap[ref]? with
    | some rec => some (ref, rec)
    | none => none

/-- tree.go `getAncestors`. -/
def Tree.getAncestors (t : Tree V) (id : String) : Option (List String) :=
  t.parents.Load id

/-- tree.go `updateAncestors`: the child's chain is the parent's id prepended
to the parent's own chain. -/
def Tree.updateAncestors (t : Tree V) (parentID childID : String) :
    ShardedMap (List String) :=
  match t.getAncestors parentID with
  | some ancestors => t.parents.Store childID (parentID :: ancestors)
  | none => t.parents.Store childID [parentID]

/-- tree.go `Add`.  Returns the error result together with the tree state
after the call. -/
def Tree.Add (t : Tree V) (node : Node V) (parent : Option (Node V)) :
    Option TError × Tree V :=
  -- if parent == nil && x.rootNode != nil { return ErrInvalidOperation }
  if parent.isNone && t.rootNode.isSome then (some .invalidOperation, t)
  else
    -- check parent node
    let parentNode : Option (Nat × NodeRecord V) :=
      match parent with
      | some p => t.getNode p.id
      | none => none
    if parent.isSome && parentNode.isNone then (some .parentNodeNotFound, t)
    else
      -- childNode := x.nodesPool.Get().(*treeNode[T]) ; the pool's New
      -- allocates a record with an empty child collection, but a reused
      -- record keeps whatever its fields held when it was put back.
      let (childRef, heap1, pool1) :=
        match t.nodesPool with
        | ref :: rest => (ref, t.heap, rest)
        | [] => (t.heap.length,
                 t.heap ++ [({ ID := "", Value := none, Descendants := [] } : NodeRecord V)],
                 ([] : List Nat))
      -- childNode.ID = node.ID() ; childNode.SetValue(val) — only the
      -- identifier and the value slot are overwritten.
      let heap2 := heapSet heap1 childRef
        (fun r => { r with ID := node.id, Value := some node })
      -- x.nodes.Store(node.ID(), childNode)
      let nodes1 := t.nodes.Store node.id childRef
      -- parentNode.Descendants.Append(childNode) ; updateAncestors
      let (heap3, parents1) :=
        match parentNode with
        | some (pref, _) =>
          (heapSet heap2 pref (fun r => { r with Descendants := r.Descendants ++ [childRef] }),
           { t with parents := t.parents }.updateAncestors
             (match parent with | some p => p.id | none => "") node.id)
        | none => (heap2, t.parents)
      -- only set the root node when parent is nil
      let root1 := match parentNode with
        | none => some childRef
        | some _ => t.rootNode
      (none,
       { nodes := nodes1, parents := parents1, heap := heap3,
         nodesPool := pool1, size := t.size + 1, rootNode := root1 })

/-- Lexicographic order on lists of naturals. -/
def lexLt : List Nat → List Nat → Bool
  | [], [] => false
  | [], _ :: _ => true
  | _ :: _, [] => false
  | a :: as, b :: bs => a < b || (a == b && lexLt as bs)

/-- Go's `<` on strings: byte-wise lexicographic comparison of the UTF-8
encodings, which for valid Unicode strings coincides with code-point
lexicographic comparison. -/
def idLt (a b : String) : Bool :=
  lexLt (a.data.map Char.toNat) (b.data.map Char.toNat)

/-- The non-strict companion of `idLt`. -/
def idLe (a b : String) : Bool := !(idLt b a)

/-- The stable sort by identifier that `sort.SliceStable(…, ids[i] < ids[j])`
performs on query results: a stable sort under the total preorder whose
strict part is `idLt`. -/
def sortByID (l : List (Node V)) : List (Node V) :=
  List.insertionSort (fun a b => idLe a.id b.id = true) l

/-- tree.go `Ancestors`: resolves each chain entry that is still in the node
index, reads its value, and sorts by identifier.  The tree state after the
call is returned alongside the result. -/
def Tree.Ancestors (t : Tree V) (node : Node V) :
    Except RuntimeErr (List (Node V) × Bool) × Tree V :=
  (match t.getAncestors node.id with
   | none => .ok ([], false)
   | some ancestorIDs =>
     let recs := ancestorIDs.filterMap (fun aid => (t.getNode aid).map (·.2))
     match recs.mapM NodeRecord.GetValue with
     | .error e => .error e
     | .ok ancestors => .ok (sortByID ancestors, true),
   t)

/-- Go's conversion of a 64-bit `uint` to `int` (two's complement wrap). -/
def intOfUint64 (n : Nat) : Int :=
  if n < 2 ^ 63 then (n : Int) else (n : Int) - 2 ^ 64

/-- tree.go `ancestorAt`: bound check `len(ancestors) > level` followed by the
slice index `ancestors[level]`, which panics when `level` is negative. -/
def Tree.ancestorAt (t : Tree V) (node : Node V) (level : Int) :
    Except RuntimeErr (Option (Nat × NodeRecord V)) :=
  match t.getAncestors node.id with
  | some ancestors =>
    if (ancestors.length : Int) > level then
      if level < 0 then .error .indexOutOfRange
      else
        match ancestors[level.toNat]? with
        | some aid => .ok (t.getNode aid)
        | none => .error .indexOutOfRange
    else .ok none
  | none => .ok none

/-- tree.go `ParentAt`: the `uint` level goes through `int(level)`. -/
def Tree.ParentAt (t : Tree V) (node : Node V) (level : Nat) :
    Except RuntimeErr (Option (Node V) × Bool) × Tree V :=
  (match t.ancestorAt node (intOfUint64 level) with
   | .error e => .error e
   | .ok none => .ok (none, false)
   | .ok (some (_, rec)) =>
     match rec.GetValue with
     | .error e => .error e
     | .ok u => .ok (some u, true),
   t)

/-- tree.go `collectDescendants`: depth-first, children in order, each child
followed by its own subtree.  The recursion over the pointer structure is
fuel-bounded; callers pass fuel exceeding any acyclic depth. -/
def collectDesc (heap : List (NodeRecord V)) : Nat → Nat → List Nat
  | 0, _ => []
  | fuel + 1, ref =>
    match heap[ref]? with
    | none => []
    | some rec => rec.Descendants.flatMap (fun c => c :: collectDesc heap fuel c)

/-- tree.go `Descendants`. -/
def Tree.Descendants (t : Tree V) (node : Node V) :
    Except RuntimeErr (List (Node V) × Bool) × Tree V :=
  (match t.getNode node.id with
   | none => .ok ([], false)
   | some (ref, _) =>
     let refs := collectDesc t.heap (t.heap.length + 1) ref
     match refs.mapM (fun r =>
         match t.heap[r]? with
         | some rec => rec.GetValue
         | none => .error .nilPointer) with
     | .error e => .error e
     | .ok descendants => .ok (sortByID descendants, true),
   t)

/-- tree.go `Find`. -/
def Tree.Find (t : Tree V) (key : String) :
    Except RuntimeErr (Option (Node V) × Bool) × Tree V :=
  (match t.getNode key with
   | none => .ok (none, false)
   | some (_, rec) =>
     match rec.GetValue with
     | .error e => .error e
     | .ok u => .ok (some u, true),
   t)

/-- tree.go `Root`: `x.rootNode.GetValue()` — calling `GetValue` on a nil
`*treeNode` dereferences the nil pointer. -/
def Tree.Root (t : Tree V) : Except RuntimeErr (Node V) × Tree V :=
  (match t.rootNode with
   | none => .error .nilPointer
   | some ref =>
     match t.heap[ref]? with
     | none => .error .nilPointer
     | some rec => rec.GetValue,
   t)

/-- tree.go `Size`. -/
def Tree.Size (t : Tree V) : Int × Tree V := (t.size, t)

/-- tree.go `Nodes`: Range over the node index, resolving each stored record
to its value. -/
def Tree.Nodes (t : Tree V) : Except RuntimeErr (List (Node V)) × Tree V :=
  (t.nodes.entries.mapM (fun kv =>
     match t.heap[kv.2]? with
     | some rec => rec.GetValue
     | none => .error .nilPointer),
   t)

/-- tree.go `Reset`: clears both indexes and the counter.  The `rootNode`
field is not assigned. -/
def Tree.Reset (t : Tree V) : Tree V :=
  { t with nodes := t.nodes.Reset, parents := t.parents.Reset, size := 0 }

/-- tree.go `filterOutChild`: removes the first child whose record carries
the given identifier, by its index in the snapshot. -/
def filterOutChild (heap : List (NodeRecord V)) (children : List Nat)
    (childID : String) : List Nat :=
  match children.findIdx? (fun cref => (heap[cref]?).map (·.ID) == some childID) with
  | some i => children.eraseIdx i
  | none => children

/-- One `n.Descendants.Delete(index)` step of the delete loop. -/
def eraseStep (t : Tree V) (ref i : Nat) : Tree V :=
  { t with heap := heapSet t.heap ref (fun r => { r with Descendants := r.Descendants.eraseIdx i }) }

/-- The tail of tree.go `deleteChildren`: remove the node from both indexes,
put its record back in the pool, decrement the counter. -/
def delFinalize (t : Tree V) (ref : Nat) (nid : String) : Tree V :=
  { t with nodes := t.nodes.Delete nid, parents := t.parents.Delete nid,
           nodesPool := ref :: t.nodesPool, size := t.size - 1 }

/-- tree.go's recursive `deleteChildren` closure: iterate over a snapshot of
the children, deleting each snapshot index from the live slice before
recursing, then remove the node itself.  Fuel-bounded as `collectDesc`. -/
def deleteChildrenAux : Nat → Tree V → Nat → Tree V
  | 0, t, _ => t
  | fuel + 1, t, ref =>
    match t.heap[ref]? with
    | none => t
    | some rec =>
      delFinalize
        (rec.Descendants.enum.foldl
          (fun s ic => deleteChildrenAux fuel (eraseStep s ref ic.1) ic.2) t)
        ref rec.ID

/-- tree.go `Delete`. -/
def Tree.Delete (t : Tree V) (node : Node V) : Option TError × Tree V :=
  match t.getNode node.id with
  | none => (some .notFound, t)
  | some (nref, _) =>
    -- remove the node from its parent's Children slice
    let t1 :=
      match t.parents.Load node.id with
      | some (parentID :: _) =>
        match t.getNode parentID with
        | some (pref, prec) =>
          -- children := filterOutChild(parent.Descendants, node.ID())
          let _children := filterOutChild t.heap prec.Descendants node.id
          -- parent.Descendants.Reset() clears the slice; `children` is the
          -- same slice object as parent.Descendants, so the Items() call in
          -- parent.Descendants.AppendMany(children.Items()...) reads the
          -- freshly cleared slice: the collection ends up empty.
          let cleared : List Nat := []
          let rebuilt := cleared ++ cleared
          { t with heap := heapSet t.heap pref (fun r => { r with Descendants := rebuilt }) }
        | none => t
      | _ => t
    (none, deleteChildrenAux (t1.heap.length + 1) t1 nref)

/-! ## Invariants and effect predicates used to reason about Delete -/

/-- Fuel-bounded well-formedness of the subtree rooted at `ref`: every record
on every child path resolves, within the fuel bound (so the Go recursion of
`deleteChildren`/`collectDescendants` terminates and visits exactly the
fuel-bounded preorder). -/
def wfSubtree (heap : List (NodeRecord V)) : Nat → Nat → Bool
  | 0, _ => false
  | fuel + 1, ref =>
    match heap[ref]? with
    | none => false
    | some rec => rec.Descendants.all (fun c => wfSubtree heap fuel c)

/-- The refs removed by deleting `ref`: `ref` followed by its preorder
descendants. -/
def preS (heap : List (NodeRecord V)) (fuel ref : Nat) : List Nat :=
  ref :: collectDesc heap fuel ref

/-- The identifiers carried by the records at the given refs. -/
def idsOfRefs (heap : List (NodeRecord V)) (rs : List Nat) : List String :=
  rs.filterMap (fun r => (heap[r]?).map (·.ID))

/-- The child refs of the record at `r` (empty when `r` does not resolve). -/
def recChildren (heap : List (NodeRecord V)) (r : Nat) : List Nat :=
  ((heap[r]?).map NodeRecord.Descendants).getD []

/-- No record outside `S` (and other than the optional excepted parent ref)
has a child inside `S`: the subtree about to be deleted is only referenced
from its parent's child collection. -/
def childrenAvoid (heap : List (NodeRecord V)) (S : List Nat)
    (pexc : Option Nat) : Prop :=
  ∀ r ∈ List.range heap.length, some r ≠ pexc → r ∉ S →
    ∀ c ∈ recChildren heap r, c ∉ S

/-- All records in the heap carry pairwise distinct identifiers. -/
def idsNodup (heap : List (NodeRecord V)) : Prop :=
  (heap.map NodeRecord.ID).Nodup

/-- Every record's value slot is set and its value's identifier matches the
record's identifier (true of every record `Add` ever created). -/
def valuesMatchIds (heap : List (NodeRecord V)) : Prop :=
  ∀ rec ∈ heap, rec.Value.map Node.id = some rec.ID

/-- Every node-index entry points at a live record carrying the entry's key
as identifier. -/
def indexBacked (t : Tree V) : Prop :=
  ∀ kv ∈ t.nodes.entries, (t.heap[kv.2]?).map NodeRecord.ID = some kv.1

/-- The parent ref that `Delete` will look up for the given identifier: the
head of the ancestor chain, resolved through the node index. -/
def prefOf (t : Tree V) (id : String) : Option Nat :=
  match t.parents.Load id with
  | some (parentID :: _) =>
    match t.getNode parentID with
    | some (pref, _) => some pref
    | none => none
  | _ => none

/-- The observable effect of a delete traversal from `t` to `t'`: only the
records at refs in `ms` may have changed — and even those keep identifier
and value slot, only their child collections move — heap length and root
reference are kept, `cnt` records were removed from the count, and exactly
the keys in `ids` were removed from both indexes. -/
structure DelEffect (t t' : Tree V) (ms : List Nat) (cnt : Nat)
    (ids : List String) : Prop where
  hlen : t'.heap.length = t.heap.length
  hframe : ∀ r, r ∉ ms → t'.heap[r]? = t.heap[r]?
  hid : ∀ r : Nat, (t'.heap[r]?).map (fun (q : NodeRecord V) => (q.ID, q.Value))
      = (t.heap[r]?).map (fun (q : NodeRecord V) => (q.ID, q.Value))
  hsize : t'.size = t.size - cnt
  hnodes : ∀ k, t'.nodes.Load k = if k ∈ ids then none else t.nodes.Load k
  hparents : ∀ k, t'.parents.Load k = if k ∈ ids then none else t.parents.Load k
  hroot : t'.rootNode = t.rootNode

/-! ## Association-list and sharded-map lemmas -/

theorem shardLoad_nil (k : String) : shardLoad ([] : List (String × α)) k = none := rfl

theorem shardLoad_cons (q : String × α) (l : List (String × α)) (k : String) :
    shardLoad (q :: l) k = if q.1 = k then some q.2 else shardLoad l k := by
  simp only [shardLoad, List.find?_cons]
  by_cases h : q.1 = k
  · simp [h]
  · simp [h, beq_eq_false_iff_ne.mpr h]

theorem shardDelete_cons (p : String × α) (rest : List (String × α)) (k : String) :
    shardDelete (p :: rest) k =
      if p.1 = k then shardDelete rest k else p :: shardDelete rest k := by
  simp only [shardDelete, List.filter_cons]
  by_cases hp : p.1 = k <;> simp [hp]

theorem shardLoad_shardDelete (sh : List (String × α)) (k k' : String) :
    shardLoad (shardDelete sh k) k' = if k' = k then none else shardLoad sh k' := by
  induction sh with
  | nil => by_cases h : k' = k <;> simp [h, shardLoad, shardDelete]
  | cons p rest ih =>
    rw [shardDelete_cons]
    by_cases hp : p.1 = k
    · rw [if_pos hp, ih]
      by_cases h : k' = k
      · simp [h]
      · rw [if_neg h, if_neg h, shardLoad_cons,
          if_neg (fun hq : p.1 = k' => h (by rw [← hq, hp]))]
    · rw [if_neg hp, shardLoad_cons]
      by_cases hq : p.1 = k'
      · have h : ¬ k' = k := fun hh => hp (by rw [hq, hh])
        rw [if_pos hq, if_neg h, shardLoad_cons, if_pos hq]
      · rw [if_neg hq, ih]
        by_cases h : k' = k <;> simp [h, shardLoad_cons, hq]

theorem shardLoad_shardStore (sh : List (String × α)) (k k' : String) (v : α) :
    shardLoad (shardStore sh k v) k' = if k' = k then some v else shardLoad sh k' := by
  rw [shardStore, shardLoad_cons]
  by_cases h : k' = k
  · simp [h]
  · rw [if_neg (fun hh : (k, v).1 = k' => h hh.symm), if_neg h,
      shardLoad_shardDelete, if_neg h]

theorem ShardedMap.length_Store (s : ShardedMap α) (k : String) (v : α) :
    (s.Store k v).shards.length = s.shards.length := by
  simp [ShardedMap.Store]

theorem ShardedMap.length_Delete (s : ShardedMap α) (k : String) :
    (s.Delete k).shards.length = s.shards.length := by
  simp [ShardedMap.Delete]

theorem ShardedMap.getShardIdx_lt (s : ShardedMap α) (k : String)
    (h : 0 < s.shards.length) : s.getShardIdx k < s.shards.length :=
  Nat.mod_lt _ h

theorem ShardedMap.Load_Store (s : ShardedMap α) (k k' : String) (v : α)
    (h : 0 < s.shards.length) :
    (s.Store k v).Load k' = if k' = k then some v else s.Load k' := by
  have hlen : (s.Store k v).shards.length = s.shards.length := s.length_Store k v
  have hidx : ∀ m, (s.Store k v).getShardIdx m = s.getShardIdx m := by
    intro m; simp [ShardedMap.getShardIdx, hlen]
  by_cases hsh : s.getShardIdx k' = s.getShardIdx k
  · rw [ShardedMap.Load, hidx, hsh, ShardedMap.Store]
    simp only [List.getD_eq_getElem?_getD,
      List.getElem?_set_eq_of_lt _ (s.getShardIdx_lt k h), Option.getD_some]
    rw [shardLoad_shardStore]
    by_cases hk : k' = k
    · simp [hk]
    · simp [hk, ShardedMap.Load, hsh]
  · have hk : ¬ k' = k := fun hh => hsh (by rw [hh])
    rw [ShardedMap.Load, hidx, ShardedMap.Store]
    simp only [List.getD_eq_getElem?_getD]
    rw [List.getElem?_set_ne (fun hh => hsh hh.symm)]
    simp [hk, ShardedMap.Load, List.getD_eq_getElem?_getD]

theorem ShardedMap.Load_Delete (s : ShardedMap α) (k k' : String) :
    (s.Delete k).Load k' = if k' = k then none else s.Load k' := by
  rcases Nat.eq_zero_or_pos s.shards.length with h0 | h
  · have hnil : s.shards = [] := List.length_eq_zero.mp h0
    simp [ShardedMap.Load, ShardedMap.Delete, hnil, shardLoad]
  · have hlen : (s.Delete k).shards.length = s.shards.length := s.length_Delete k
    have hidx : ∀ m, (s.Delete k).getShardIdx m = s.getShardIdx m := by
      intro m; simp [ShardedMap.getShardIdx, hlen]
    by_cases hsh : s.getShardIdx k' = s.getShardIdx k
    · rw [ShardedMap.Load, hidx, hsh, ShardedMap.Delete]
      simp only [List.getD_eq_getElem?_getD,
        List.getElem?_set_eq_of_lt _ (s.getShardIdx_lt k h), Option.getD_some]
      rw [shardLoad_shardDelete]
      by_cases hk : k' = k
      · simp [hk]
      · simp [hk, ShardedMap.Load, hsh]
    · have hk : ¬ k' = k := fun hh => hsh (by rw [hh])
      rw [ShardedMap.Load, hidx, ShardedMap.Delete]
      simp only [List.getD_eq_getElem?_getD]
      rw [List.getElem?_set_ne (fun hh => hsh hh.symm)]
      simp [hk, ShardedMap.Load, List.getD_eq_getElem?_getD]

theorem ShardedMap.Load_New (n : Nat) (k : String) :
    (NewShardedMap α n).Load k = none := by
  simp [ShardedMap.Load, NewShardedMap, List.getD_eq_getElem?_getD,
    List.getElem?_replicate]
  split <;> simp [shardLoad]

/-- C8: the sharded index gives per-key read-your-writes and never fails:
after `Store(k, v)` a `Load(k)` returns `(v, true)`; after `Delete(k)` a
`Load(k)` returns `found = false`; `Load` on a never-stored key returns
`found = false`; and `Store`/`Delete` on a key route to the same partition
as `Load` on that key. -/
theorem sharded_map_read_your_writes (s : ShardedMap α) (n : Nat) (k k0 : String)
    (v : α) (h : 0 < s.shards.length) :
    ((s.Store k v).Load k = some v) ∧
    ((s.Delete k).Load k = none) ∧
    ((NewShardedMap α n).Load k0 = none) ∧
    ((s.Store k v).getShardIdx k = s.getShardIdx k) ∧
    ((s.Delete k).getShardIdx k = s.getShardIdx k) := by
  refine ⟨?_, ?_, ShardedMap.Load_New n k0, ?_, ?_⟩
  · rw [s.Load_Store k k v h]; simp
  · rw [s.Load_Delete k k]; simp
  · simp [ShardedMap.getShardIdx, s.length_Store k v]
  · simp [ShardedMap.getShardIdx, s.length_Delete k]

/-- Witness for `sharded_map_read_your_writes` at a concrete map and key. -/
theorem sharded_map_read_your_writes_witness :
    (0 < (NewShardedMap Nat 64).shards.length) ∧
    (((NewShardedMap Nat 64).Store "k" 7).Load "k" = some 7) ∧
    (((NewShardedMap Nat 64).Delete "k").Load "k" = none) ∧
    ((NewShardedMap Nat 3).Load "q" = none) :=
  ⟨by decide,
   (sharded_map_read_your_writes (NewShardedMap Nat 64) 3 "k" "q" 7 (by decide)).1,
   (sharded_map_read_your_writes (NewShardedMap Nat 64) 3 "k" "q" 7 (by decide)).2.1,
   (sharded_map_read_your_writes (NewShardedMap Nat 64) 3 "k" "q" 7 (by decide)).2.2.1⟩

/-! ## Failed mutations and pure queries (C5, C9) -/

/-- C5: a failed Add has no effect.  When a root already exists, adding with
`parent = nil` fails with `InvalidOperation` and returns the tree unchanged
(hence `Size()` and `Root()` unchanged); when the parent identifier is absent
from the node index, adding fails with `ParentNodeNotFound` and returns the
tree unchanged (hence `Size()` unchanged). -/
theorem failed_add_has_no_effect (t : Tree V) (node p : Node V)
    (hroot : t.rootNode.isSome = true) (hp : t.nodes.Load p.id = none) :
    t.Add node none = (some .invalidOperation, t) ∧
    t.Add node (some p) = (some .parentNodeNotFound, t) := by
  constructor
  · simp [Tree.Add, hroot]
  · simp [Tree.Add, Tree.getNode, hp]

/-- C9: every query operation — Find, Ancestors, Descendants, ParentAt, Root,
Size, Nodes — returns the tree state it was called on: none of them assigns
any field of the tree (node index, ancestor-chain index, heap of records and
their child collections, pool, root reference, live count). -/
theorem queries_leave_state_unchanged (t : Tree V) (key : String) (n : Node V)
    (level : Nat) :
    (t.Find key).2 = t ∧ (t.Ancestors n).2 = t ∧ (t.Descendants n).2 = t ∧
    (t.ParentAt n level).2 = t ∧ t.Root.2 = t ∧ t.Size.2 = t ∧ t.Nodes.2 = t :=
  ⟨rfl, rfl, rfl, rfl, rfl, rfl, rfl⟩

/-! ## Concrete scenarios used by the evaluation theorems and witnesses -/

namespace Ex

def r : Node Nat := ⟨"r", 0⟩
def r2 : Node Nat := ⟨"r2", 10⟩
def a : Node Nat := ⟨"a", 1⟩
def b : Node Nat := ⟨"b", 2⟩
def c : Node Nat := ⟨"c", 3⟩
def d : Node Nat := ⟨"d", 4⟩
def g : Node Nat := ⟨"g", 5⟩

/-- A tree holding only its root. -/
def tRoot : Tree Nat := ((NewTree Nat).Add r none).2

/-- `tRoot` after `Reset()`. -/
def tReset : Tree Nat := tRoot.Reset

/-- `tRoot` after deleting the root. -/
def tRootDeleted : Tree Nat := (tRoot.Delete r).2

/-- root → a. -/
def tChild : Tree Nat := (tRoot.Add a (some r)).2

/-- root → a → g. -/
def tGrand : Tree Nat := (tChild.Add g (some a)).2

/-- root → a → {b, c}. -/
def tFam : Tree Nat := ((tChild.Add b (some a)).2.Add c (some a)).2

/-- `tFam` after deleting `a` (taking b and c with it). -/
def tFamDel : Tree Nat := (tFam.Delete a).2

/-- `tFamDel` after adding `d` under the root: `d` reuses `a`'s pooled
record. -/
def tStale : Tree Nat := (tFamDel.Add d (some r)).2

end Ex

/-- Witness for `failed_add_has_no_effect` on a concrete one-node tree. -/
theorem failed_add_has_no_effect_witness :
    (Ex.tRoot.rootNode.isSome = true ∧ Ex.tRoot.nodes.Load "zz" = none) ∧
    (Ex.tRoot.Add Ex.a none = (some .invalidOperation, Ex.tRoot) ∧
      Ex.tRoot.Add Ex.a (some ⟨"zz", 9⟩) = (some .parentNodeNotFound, Ex.tRoot)) :=
  ⟨⟨by decide, by decide⟩,
   failed_add_has_no_effect Ex.tRoot Ex.a ⟨"zz", 9⟩ (by decide) (by decide)⟩

/-! ## Reset and the root reference (C1, C2) -/

/-- C1 (code-bug evaluation): after `Reset()` the size is 0 and `Nodes()` is
empty, as claimed — but the root reference is not cleared: `rootNode` still
points at the old root record, `Root()` returns the stale root value instead
of an empty result, and a subsequent `Add` with `parent = nil` fails with
`InvalidOperation` instead of succeeding as a new root. -/
theorem reset_keeps_root_reference :
    Ex.tReset.Size.1 = 0 ∧
    Ex.tReset.Nodes.1 = .ok [] ∧
    Ex.tReset.rootNode = some 0 ∧
    Ex.tReset.Root.1 = .ok Ex.r ∧
    (Ex.tReset.Add Ex.r2 none).1 = some .invalidOperation := by
  decide

/-- C2 (code-bug evaluation): `Root()` on a never-populated tree calls
`GetValue` on the nil `rootNode` pointer and panics instead of signalling an
empty result; and deleting the root does not clear the root reference — after
the root's index entry is removed, `rootNode` still points at the pooled
record and `Root()` returns the stale value. -/
theorem root_on_empty_tree_panics :
    (NewTree Nat).Root.1 = .error .nilPointer ∧
    (Ex.tRoot.Delete Ex.r).1 = none ∧
    (Ex.tRootDeleted.Find "r").1 = .ok (none, false) ∧
    Ex.tRootDeleted.rootNode = some 0 ∧
    Ex.tRootDeleted.Root.1 = .ok Ex.r := by
  decide

/-! ## Pool reuse without reset (C6) -/

/-- C6 (code-bug evaluation): `Add` does not clear the child collection of a
record drawn from the pool.  After deleting `a` (whose two children leave its
collection non-empty because the delete loop erases live indexes taken from
the snapshot), adding `d` under the root succeeds, yet `Descendants(d)`
reports the stale child `c` — a node `Find` says is gone — instead of an
empty result. -/
theorem pooled_record_keeps_stale_children :
    (Ex.tFamDel.Add Ex.d (some Ex.r)).1 = none ∧
    (Ex.tStale.Descendants Ex.d).1 = .ok ([Ex.c], true) ∧
    (Ex.tStale.Find "c").1 = .ok (none, false) := by
  decide

/-! ## ParentAt at huge levels (C7) -/

/-- C7 (code-bug evaluation): `ParentAt(node, 0)` returns the immediate
parent and small out-of-range levels report not-found, but for an attached
node and a level in `[2^63, 2^64)` the `uint → int` conversion makes the
level negative; the bound check `len(ancestors) > level` then passes and the
slice index panics instead of reporting not-found. -/
theorem parentAt_huge_level_panics :
    (Ex.tChild.ParentAt Ex.a 0).1 = .ok (some Ex.r, true) ∧
    (Ex.tChild.ParentAt Ex.a 1).1 = .ok (none, false) ∧
    (Ex.tChild.ParentAt Ex.a (2 ^ 63)).1 = .error .indexOutOfRange := by
  decide

/-! ## Ancestors (C3) -/

theorem lexLt_asymm : ∀ a b : List Nat, lexLt a b = true → lexLt b a = false := by
  intro a
  induction a with
  | nil =>
    intro b h
    cases b with
    | nil => simp [lexLt] at h
    | cons y ys => simp [lexLt]
  | cons x xs ih =>
    intro b h
    cases b with
    | nil => simp [lexLt] at h
    | cons y ys =>
      simp only [lexLt, Bool.or_eq_true, decide_eq_true_eq, Bool.and_eq_true,
        beq_iff_eq] at h
      rcases h with h | ⟨he, hrec⟩
      · have h1 : ¬ y < x := by omega
        have h2 : ¬ y = x := by omega
        simp [lexLt, h1, h2]
      · subst he
        simp [lexLt, Nat.lt_irrefl, ih ys hrec]

theorem lexLt_false_trans :
    ∀ a b c : List Nat, lexLt b a = false → lexLt c b = false → lexLt c a = false := by
  intro a
  induction a with
  | nil =>
    intro b c _ _
    cases c <;> simp [lexLt]
  | cons x xs ih =>
    intro b c h1 h2
    cases b with
    | nil => simp [lexLt] at h1
    | cons y ys =>
      cases c with
      | nil => simp [lexLt] at h2
      | cons z zs =>
        simp only [lexLt, Bool.or_eq_false_iff, Bool.and_eq_false_iff,
          decide_eq_false_iff_not, beq_eq_false_iff_ne, ne_eq] at h1 h2 ⊢
        refine ⟨by omega, ?_⟩
        by_cases hzx : z = x
        · have hyx : y = x := by omega
          have h1' : lexLt ys xs = false := by
            rcases h1.2 with h | h
            · exact absurd hyx h
            · exact h
          have h2' : lexLt zs ys = false := by
            rcases h2.2 with h | h
            · exact absurd (by omega : z = y) h
            · exact h
          exact Or.inr (ih ys zs h1' h2')
        · exact Or.inl hzx

instance sortRelTotal (V : Type) :
    IsTotal (Node V) (fun a b => idLe a.id b.id = true) := by
  constructor
  intro x y
  simp only [idLe, Bool.not_eq_true']
  rcases h : idLt y.id x.id with _ | _
  · exact Or.inl rfl
  · exact Or.inr (lexLt_asymm _ _ h)

instance sortRelTrans (V : Type) :
    IsTrans (Node V) (fun a b => idLe a.id b.id = true) := by
  constructor
  intro x y z h1 h2
  simp only [idLe, Bool.not_eq_true'] at h1 h2 ⊢
  exact lexLt_false_trans _ _ _ h1 h2

/-- Resolving every entry of an ancestor chain through the node index: when
each chain entry resolves to a record carrying a value, the `GetValue` pass
of `Ancestors` succeeds and produces exactly one value per chain entry, in
chain order. -/
theorem ancestors_resolve (t : Tree V) :
    ∀ (chain : List String) (vals : List (Node V)),
      chain.mapM (fun aid => (t.getNode aid).bind (fun pr => pr.2.Value)) = some vals →
      ((chain.filterMap (fun aid => (t.getNode aid).map (·.2))).mapM
          NodeRecord.GetValue = Except.ok vals) ∧
      vals.length = chain.length := by
  intro chain
  induction chain with
  | nil =>
    intro vals h
    simp only [List.mapM_nil, Option.pure_def, Option.some.injEq] at h
    subst h
    exact ⟨rfl, rfl⟩
  | cons aid rest ih =>
    intro vals h
    rw [List.mapM_cons] at h
    simp only [Option.bind_eq_bind, Option.pure_def, Option.bind_eq_some,
      Option.some.injEq] at h
    obtain ⟨v, hv, vs, hvs, hcons⟩ := h
    obtain ⟨pr, hpr, hval⟩ := hv
    obtain ⟨hmap, hlen⟩ := ih vs hvs
    subst hcons
    constructor
    · have hfm : List.filterMap (fun aid => Option.map (fun x => x.2) (t.getNode aid))
          (aid :: rest)
          = pr.2 :: List.filterMap (fun aid => Option.map (fun x => x.2) (t.getNode aid))
              rest := by
        simp [List.filterMap_cons, hpr]
      rw [hfm, List.mapM_cons]
      have hgv : pr.2.GetValue = Except.ok v := by simp [NodeRecord.GetValue, hval]
      rw [hgv, hmap]
      rfl
    · simp [hlen]

/-- C3 amended: the root itself has no ancestor-chain entry, so
`Ancestors(root)` reports `ok = false`; for every node that has an
ancestor-chain entry whose entries all resolve, `Ancestors` succeeds and
returns one entry per chain entry (so a direct child of the root gets
exactly one, a grandchild exactly two), resolved in nearest-parent-first
chain order before the identifier sort, and the returned list is sorted
ascending by identifier. -/
theorem ancestors_attached_below_root (t : Tree V) (n : Node V)
    (chain : List String) (vals : List (Node V))
    (hc : t.parents.Load n.id = some chain)
    (hres : chain.mapM (fun aid => (t.getNode aid).bind (fun pr => pr.2.Value))
      = some vals) :
    (t.Ancestors n).1 = .ok (sortByID vals, true) ∧
    (sortByID vals).length = chain.length ∧
    List.Sorted (fun a b : Node V => idLe a.id b.id = true) (sortByID vals) ∧
    (∀ m : Node V, t.parents.Load m.id = none → (t.Ancestors m).1 = .ok ([], false)) := by
  obtain ⟨hmap, hlen⟩ := ancestors_resolve t chain vals hres
  have hsl : (sortByID vals).length = vals.length :=
    (List.perm_insertionSort _ _).length_eq
  refine ⟨?_, by rw [hsl, hlen], ?_, ?_⟩
  · simp only [Tree.Ancestors, Tree.getAncestors, hc, hmap]
  · exact List.sorted_insertionSort _ vals
  · intro m hm
    simp only [Tree.Ancestors, Tree.getAncestors, hm]

/-- C3 counterexample: in a tree holding only its root, the root is attached
(`Find` succeeds on it) yet `Ancestors(root)` reports `ok = false`, refuting
"Ancestors succeeds for every node attached to the tree". -/
theorem ancestors_of_root_not_ok :
    (Ex.tRoot.Find "r").1 = .ok (some Ex.r, true) ∧
    (Ex.tRoot.Ancestors Ex.r).1 = .ok ([], false) := by
  decide

/-- Witness for `ancestors_attached_below_root`: in root → a → g, the
grandchild's chain is ["a", "r"] and Ancestors returns both, sorted. -/
theorem ancestors_attached_below_root_witness :
    (Ex.tGrand.parents.Load "g" = some ["a", "r"]) ∧
    ((Ex.tGrand.Ancestors Ex.g).1 = .ok ([Ex.a, Ex.r], true) ∧
      ([Ex.a, Ex.r] : List (Node Nat)).length = (["a", "r"] : List String).length) := by
  refine ⟨by decide, ?_, by decide⟩
  have h := ancestors_attached_below_root Ex.tGrand Ex.g ["a", "r"] [Ex.a, Ex.r]
    (by decide) (by decide)
  have hs : sortByID [Ex.a, Ex.r] = [Ex.a, Ex.r] := by decide
  simpa [hs] using h.1

/-! ## Delete (C4): heap-update and traversal lemmas -/

theorem heapSet_length (h : List (NodeRecord V)) (i : Nat)
    (f : NodeRecord V → NodeRecord V) : (heapSet h i f).length = h.length := by
  unfold heapSet
  cases hc : h[i]? <;> simp

theorem heapSet_getElem?_ne (h : List (NodeRecord V)) (i : Nat)
    (f : NodeRecord V → NodeRecord V) (r : Nat) (hne : i ≠ r) :
    (heapSet h i f)[r]? = h[r]? := by
  unfold heapSet
  cases hc : h[i]?
  · rfl
  · exact List.getElem?_set_ne hne

theorem heapSet_getElem?_self (h : List (NodeRecord V)) (i : Nat)
    (f : NodeRecord V → NodeRecord V) (rec : NodeRecord V)
    (hc : h[i]? = some rec) : (heapSet h i f)[i]? = some (f rec) := by
  unfold heapSet
  rw [hc]
  exact List.getElem?_set_eq_of_lt _ (List.getElem?_eq_some.mp hc).1

theorem lt_of_getElem?_some {h : List (NodeRecord V)} {i : Nat}
    {rec : NodeRecord V} (hc : h[i]? = some rec) : i < h.length :=
  (List.getElem?_eq_some.mp hc).1

theorem flatMapCongr {f g : α → List β} :
    ∀ (l : List α), (∀ a ∈ l, f a = g a) → l.flatMap f = l.flatMap g := by
  intro l
  induction l with
  | nil => intro _; rfl
  | cons a as ih =>
    intro hl
    simp only [List.flatMap_cons]
    rw [hl a (by simp), ih (fun x hx => hl x (by simp [hx]))]

theorem allCongr {f g : α → Bool} :
    ∀ (l : List α), (∀ a ∈ l, f a = g a) → l.all f = l.all g := by
  intro l
  induction l with
  | nil => intro _; rfl
  | cons a as ih =>
    intro hl
    simp only [List.all_cons]
    rw [hl a (by simp), ih (fun x hx => hl x (by simp [hx]))]

/-- Membership in the preorder list: a child's preorder is contained in the
parent's at one more fuel. -/
theorem mem_preS_of_child {heap : List (NodeRecord V)} {fuel ref c : Nat}
    {rec : NodeRecord V} (href : heap[ref]? = some rec)
    (hc : c ∈ rec.Descendants) :
    ∀ x ∈ preS heap fuel c, x ∈ preS heap (fuel + 1) ref := by
  intro x hx
  have hcol : collectDesc heap (fuel + 1) ref
      = rec.Descendants.flatMap (fun d => d :: collectDesc heap fuel d) := by
    simp [collectDesc, href]
  have hx' : x = c ∨ x ∈ collectDesc heap fuel c := List.mem_cons.mp hx
  simp only [preS, List.mem_cons, hcol, List.mem_flatMap]
  right
  exact ⟨c, hc, hx'⟩

/-- The traversal reads only records at refs in the preorder list, so heaps
agreeing there produce the same preorder and the same well-formedness
verdict. -/
theorem collectDesc_congr :
    ∀ (fuel : Nat) (h1 h2 : List (NodeRecord V)) (ref : Nat),
      (∀ r ∈ preS h1 fuel ref, h2[r]? = h1[r]?) →
      collectDesc h2 fuel ref = collectDesc h1 fuel ref ∧
      wfSubtree h2 fuel ref = wfSubtree h1 fuel ref := by
  intro fuel
  induction fuel with
  | zero => intro h1 h2 ref _; exact ⟨rfl, rfl⟩
  | succ fuel ih =>
    intro h1 h2 ref hag
    have href : h2[ref]? = h1[ref]? := hag ref (by simp [preS])
    cases hc : h1[ref]? with
    | none =>
      rw [hc] at href
      simp [collectDesc, wfSubtree, hc, href]
    | some rec =>
      rw [hc] at href
      have hrec : ∀ c ∈ rec.Descendants,
          collectDesc h2 fuel c = collectDesc h1 fuel c ∧
          wfSubtree h2 fuel c = wfSubtree h1 fuel c := by
        intro c hcm
        exact ih h1 h2 c (fun x hx => hag x (mem_preS_of_child hc hcm x hx))
      constructor
      · simp only [collectDesc, hc, href]
        exact flatMapCongr _ (fun c hcm => by rw [(hrec c hcm).1])
      · simp only [wfSubtree, hc, href]
        exact allCongr _ (fun c hcm => (hrec c hcm).2)

theorem idsOfRefs_congr {h1 h2 : List (NodeRecord V)} {rs : List Nat}
    (hag : ∀ r ∈ rs, h2[r]? = h1[r]?) : idsOfRefs h2 rs = idsOfRefs h1 rs := by
  unfold idsOfRefs
  induction rs with
  | nil => rfl
  | cons r rest ih =>
    simp only [List.filterMap_cons]
    rw [hag r (by simp), ih (fun x hx => hag x (by simp [hx]))]

/-! ## Delete (C4): effect algebra -/

theorem DelEffect.id_refl (t : Tree V) : DelEffect t t [] 0 [] := by
  refine ⟨rfl, fun _ _ => rfl, fun _ => rfl, by simp, fun k => by simp,
    fun k => by simp, rfl⟩

theorem DelEffect.comp {t t1 t2 : Tree V} {ms1 ms2 : List Nat} {c1 c2 : Nat}
    {ids1 ids2 : List String} (e1 : DelEffect t t1 ms1 c1 ids1)
    (e2 : DelEffect t1 t2 ms2 c2 ids2) :
    DelEffect t t2 (ms1 ++ ms2) (c1 + c2) (ids1 ++ ids2) := by
  refine ⟨e2.hlen.trans e1.hlen, ?_, ?_, ?_, ?_, ?_, e2.hroot.trans e1.hroot⟩
  · intro r hr
    rw [e2.hframe r (fun hx => hr (by simp [hx])),
      e1.hframe r (fun hx => hr (by simp [hx]))]
  · intro r
    rw [e2.hid r, e1.hid r]
  · rw [e2.hsize, e1.hsize]
    push_cast
    ring
  · intro k
    rw [e2.hnodes k]
    by_cases h2 : k ∈ ids2
    · simp [h2]
    · rw [e1.hnodes k]
      by_cases h1 : k ∈ ids1 <;> simp [h1, h2]
  · intro k
    rw [e2.hparents k]
    by_cases h2 : k ∈ ids2
    · simp [h2]
    · rw [e1.hparents k]
      by_cases h1 : k ∈ ids1 <;> simp [h1, h2]

theorem DelEffect.mono {t t' : Tree V} {ms ms' : List Nat} {c c' : Nat}
    {ids ids' : List String} (e : DelEffect t t' ms c ids)
    (hms : ∀ r ∈ ms, r ∈ ms') (hc : c' = c)
    (hids : ∀ k, k ∈ ids ↔ k ∈ ids') :
    DelEffect t t' ms' c' ids' := by
  refine ⟨e.hlen, ?_, e.hid, by rw [e.hsize, hc], ?_, ?_, e.hroot⟩
  · intro r hr
    exact e.hframe r (fun hx => hr (hms r hx))
  · intro k
    rw [e.hnodes k]
    by_cases h : k ∈ ids
    · simp [h, (hids k).mp h]
    · have h' : k ∉ ids' := fun hx => h ((hids k).mpr hx)
      simp [h, h']
  · intro k
    rw [e.hparents k]
    by_cases h : k ∈ ids
    · simp [h, (hids k).mp h]
    · have h' : k ∉ ids' := fun hx => h ((hids k).mpr hx)
      simp [h, h']

theorem eraseStep_effect (t : Tree V) (ref i : Nat) :
    DelEffect t (eraseStep t ref i) [ref] 0 [] := by
  refine ⟨heapSet_length _ _ _, ?_, ?_, by simp [eraseStep], fun k => by simp [eraseStep],
    fun k => by simp [eraseStep], rfl⟩
  · intro r hr
    exact heapSet_getElem?_ne _ _ _ _ (fun hx => hr (by simp [hx]))
  · intro r
    by_cases hr : ref = r
    · subst hr
      cases hc : t.heap[ref]? with
      | none => simp [eraseStep, heapSet, hc]
      | some rec => simp [eraseStep, heapSet_getElem?_self _ _ _ _ hc, hc]
    · simp [eraseStep, heapSet_getElem?_ne _ _ _ _ hr]

/-- A successful index lookup is an entry that `Range` visits. -/
theorem Load_mem_entries (s : ShardedMap α) (k : String) (v : α)
    (h : s.Load k = some v) : (k, v) ∈ s.entries := by
  unfold ShardedMap.Load shardLoad at h
  obtain ⟨p, hp, hv⟩ : ∃ p, (s.shards.getD (s.getShardIdx k) []).find?
      (fun p => p.1 == k) = some p ∧ p.2 = v := by
    cases hf : (s.shards.getD (s.getShardIdx k) []).find? (fun p => p.1 == k) with
    | none => rw [hf] at h; simp at h
    | some p =>
      rw [hf] at h
      simp only [Option.map_some', Option.some.injEq] at h
      exact ⟨p, rfl, h⟩
  have hkey : p.1 = k := by simpa using List.find?_some hp
  have hmem : p ∈ s.shards.getD (s.getShardIdx k) [] := List.mem_of_find?_eq_some hp
  have hpv : p = (k, v) := by
    cases p
    simp only [Prod.mk.injEq]
    exact ⟨hkey, hv⟩
  have hshard : s.shards.getD (s.getShardIdx k) [] ∈ s.shards := by
    rcases Nat.lt_or_ge (s.getShardIdx k) s.shards.length with hlt | hge
    · rw [List.getD_eq_getElem?_getD, List.getElem?_eq_getElem hlt]
      simp only [Option.getD_some]
      exact List.getElem_mem hlt
    · rw [List.getD_eq_getElem?_getD, List.getElem?_eq_none hge] at hp
      simp [List.find?] at hp
  rw [← hpv] at *
  exact List.mem_flatten.mpr ⟨_, hshard, hmem⟩

/-- Each element of a successful `mapM` run comes from some input element. -/
theorem mapM_ok_mem {ε β γ : Type} {f : γ → Except ε β} :
    ∀ (l : List γ) (out : List β), l.mapM f = .ok out →
      ∀ u ∈ out, ∃ r ∈ l, f r = .ok u := by
  intro l
  induction l with
  | nil =>
    intro out h u hu
    simp only [List.mapM_nil, pure, Except.pure, Except.ok.injEq] at h
    subst h
    simp at hu
  | cons a rest ih =>
    intro out h u hu
    rw [List.mapM_cons] at h
    cases hf : f a with
    | error e =>
      rw [hf] at h
      simp only [bind, Except.bind] at h
      exact Except.noConfusion h
    | ok x =>
      rw [hf] at h
      cases hrest : rest.mapM f with
      | error e =>
        rw [hrest] at h
        simp only [bind, Except.bind] at h
        exact Except.noConfusion h
      | ok xs =>
        rw [hrest] at h
        simp only [bind, Except.bind, pure, Except.pure, Except.ok.injEq] at h
        subst h
        rcases List.mem_cons.mp hu with rfl | hmem
        · exact ⟨a, by simp, hf⟩
        · obtain ⟨r, hr, hfr⟩ := ih xs hrest u hmem
          exact ⟨r, by simp [hr], hfr⟩

/-- When no record outside `S` has a child in `S`, a traversal started
outside `S` never reaches `S`. -/
theorem collect_avoids {S : List Nat} :
    ∀ (fuel : Nat) (heap : List (NodeRecord V)) (aref : Nat),
      aref ∉ S →
      (∀ r (rc : NodeRecord V), r ∉ S → heap[r]? = some rc →
        ∀ c ∈ rc.Descendants, c ∉ S) →
      ∀ x ∈ collectDesc heap fuel aref, x ∉ S := by
  intro fuel
  induction fuel with
  | zero => intro heap aref _ _ x hx; simp [collectDesc] at hx
  | succ fuel ih =>
    intro heap aref ha hcl x hx
    cases hr : heap[aref]? with
    | none => simp [collectDesc, hr] at hx
    | some rc =>
      simp only [collectDesc, hr, List.mem_flatMap] at hx
      obtain ⟨c, hcm, hxc⟩ := hx
      have hc : c ∉ S := hcl aref rc ha hr c hcm
      rcases List.mem_cons.mp hxc with rfl | hxcol
      · exact hc
      · exact ih heap c hc hcl x hxcol

theorem delFinalize_effect (t : Tree V) (ref : Nat) (nid : String) :
    DelEffect t (delFinalize t ref nid) [] 1 [nid] := by
  refine ⟨rfl, fun _ _ => rfl, fun _ => rfl, by simp [delFinalize], ?_, ?_, rfl⟩
  · intro k
    simp only [delFinalize]
    rw [ShardedMap.Load_Delete]
    by_cases h : k = nid <;> simp [h]
  · intro k
    simp only [delFinalize]
    rw [ShardedMap.Load_Delete]
    by_cases h : k = nid <;> simp [h]

/-- Effect of the delete loop over a child snapshot: the subtrees of the
listed children are removed one by one; only the looping record (`ref`) and
the refs inside those subtrees are touched. -/
theorem delLoop_effect (fuel : Nat)
    (ih : ∀ (t : Tree V) (ref : Nat),
      wfSubtree t.heap fuel ref = true →
      (preS t.heap fuel ref).Nodup →
      DelEffect t (deleteChildrenAux fuel t ref) (preS t.heap fuel ref)
        (preS t.heap fuel ref).length (idsOfRefs t.heap (preS t.heap fuel ref))) :
    ∀ (cs : List Nat) (H0 : List (NodeRecord V)) (ref : Nat) (i : Nat) (t1 : Tree V),
      (∀ c ∈ cs, wfSubtree H0 fuel c = true) →
      (cs.flatMap (preS H0 fuel)).Nodup →
      ref ∉ cs.flatMap (preS H0 fuel) →
      (∀ r ∈ cs.flatMap (preS H0 fuel), t1.heap[r]? = H0[r]?) →
      DelEffect t1
        ((List.enumFrom i cs).foldl
          (fun s ic => deleteChildrenAux fuel (eraseStep s ref ic.1) ic.2) t1)
        (ref :: cs.flatMap (preS H0 fuel))
        (cs.flatMap (preS H0 fuel)).length
        (idsOfRefs H0 (cs.flatMap (preS H0 fuel))) := by
  intro cs
  induction cs with
  | nil =>
    intro H0 ref i t1 _ _ _ _
    simp only [List.flatMap_nil, List.enumFrom_nil, List.foldl_nil]
    exact (DelEffect.id_refl t1).mono (by simp) (by simp) (by simp [idsOfRefs])
  | cons c rest ihl =>
    intro H0 ref i t1 hwf hnd hrefn hag
    have hflat : (c :: rest).flatMap (preS H0 fuel)
        = preS H0 fuel c ++ rest.flatMap (preS H0 fuel) := List.flatMap_cons c rest _
    rw [List.enumFrom_cons, List.foldl_cons]
    rw [hflat] at hnd hrefn hag
    have hndc : (preS H0 fuel c).Nodup := hnd.of_append_left
    have hndrest : (rest.flatMap (preS H0 fuel)).Nodup := hnd.of_append_right
    have hdisj : (preS H0 fuel c).Disjoint (rest.flatMap (preS H0 fuel)) :=
      List.disjoint_of_nodup_append hnd
    have hrefc : ref ∉ preS H0 fuel c := fun hx => hrefn (by simp [hx])
    have hrefrest : ref ∉ rest.flatMap (preS H0 fuel) := fun hx => hrefn (by simp [hx])
    have E1 := eraseStep_effect t1 ref i
    -- the state in which the child subtree is deleted
    have hag2 : ∀ r ∈ preS H0 fuel c, (eraseStep t1 ref i).heap[r]? = H0[r]? := by
      intro r hr
      rw [E1.hframe r (by
        simp only [List.mem_singleton]
        exact fun hx => absurd hr (by rw [hx]; exact hrefc))]
      exact hag r (by simp [hr])
    obtain ⟨hcol2, hwf2⟩ := collectDesc_congr fuel H0 (eraseStep t1 ref i).heap c hag2
    have hpre2 : preS (eraseStep t1 ref i).heap fuel c = preS H0 fuel c := by
      simp only [preS, hcol2]
    have E2 := ih (eraseStep t1 ref i) c
      (by rw [hwf2]; exact hwf c (by simp)) (by rw [hpre2]; exact hndc)
    rw [hpre2, idsOfRefs_congr hag2] at E2
    have E12 := E1.comp E2
    -- hypotheses for the remaining children
    have hag3 : ∀ r ∈ rest.flatMap (preS H0 fuel),
        (deleteChildrenAux fuel (eraseStep t1 ref i) c).heap[r]? = H0[r]? := by
      intro r hr
      have hrc : r ∉ preS H0 fuel c := fun hx => hdisj hx hr
      rw [E2.hframe r hrc, E1.hframe r (by
        simp only [List.mem_singleton]
        exact fun hx => absurd hr (by rw [hx]; exact hrefrest))]
      exact hag r (by simp [hr])
    have E3 := ihl H0 ref (i + 1) (deleteChildrenAux fuel (eraseStep t1 ref i) c)
      (fun x hx => hwf x (by simp [hx])) hndrest hrefrest hag3
    have Etot := E12.comp E3
    refine Etot.mono ?_ ?_ ?_
    · intro r hr
      rw [hflat]
      simp only [List.mem_append, List.mem_cons, List.mem_singleton] at hr ⊢
      tauto
    · rw [hflat]
      simp only [List.length_append]
      omega
    · intro k
      rw [hflat]
      simp only [idsOfRefs, List.filterMap_append, List.mem_append,
        List.nil_append]

/-- The effect of `deleteChildren`: on a well-formed, duplicate-free subtree
it removes exactly the preorder refs — their identifiers disappear from both
indexes, the count drops by the number of removed records, and no record
outside the subtree changes (identifiers and values change nowhere). -/
theorem deleteChildrenAux_effect :
    ∀ (fuel : Nat) (t : Tree V) (ref : Nat),
      wfSubtree t.heap fuel ref = true →
      (preS t.heap fuel ref).Nodup →
      DelEffect t (deleteChildrenAux fuel t ref) (preS t.heap fuel ref)
        (preS t.heap fuel ref).length (idsOfRefs t.heap (preS t.heap fuel ref)) := by
  intro fuel
  induction fuel with
  | zero => intro t ref hwf _; simp [wfSubtree] at hwf
  | succ fuel ih =>
    intro t ref hwf hnd
    cases hr : t.heap[ref]? with
    | none => simp [wfSubtree, hr] at hwf
    | some rc =>
      have hwfc : ∀ c ∈ rc.Descendants, wfSubtree t.heap fuel c = true := by
        simp only [wfSubtree, hr, List.all_eq_true] at hwf
        exact hwf
      have hfn : deleteChildrenAux (fuel + 1) t ref
          = delFinalize ((List.enumFrom 0 rc.Descendants).foldl
              (fun s ic => deleteChildrenAux fuel (eraseStep s ref ic.1) ic.2) t)
              ref rc.ID := by
        simp [deleteChildrenAux, hr, List.enum]
      have hpre : preS t.heap (fuel + 1) ref
          = ref :: rc.Descendants.flatMap (preS t.heap fuel) := by
        simp only [preS, collectDesc, hr]
        rfl
      rw [hfn]
      have hnd' : (rc.Descendants.flatMap (preS t.heap fuel)).Nodup := by
        rw [hpre] at hnd
        exact hnd.of_cons
      have hrefnot : ref ∉ rc.Descendants.flatMap (preS t.heap fuel) := by
        rw [hpre] at hnd
        exact (List.nodup_cons.mp hnd).1
      have Eloop := delLoop_effect fuel ih rc.Descendants t.heap ref 0 t hwfc hnd'
        hrefnot (fun r _ => rfl)
      have Efin := delFinalize_effect
        ((List.enumFrom 0 rc.Descendants).foldl
          (fun s ic => deleteChildrenAux fuel (eraseStep s ref ic.1) ic.2) t)
        ref rc.ID
      have Etot := Eloop.comp Efin
      refine Etot.mono ?_ ?_ ?_
      · intro r hrm
        rw [hpre]
        simpa using hrm
      · rw [hpre]
        simp
      · intro k
        rw [hpre]
        simp only [idsOfRefs, List.filterMap_cons, hr, Option.map_some',
          List.mem_append, List.mem_cons, List.mem_singleton]
        tauto

/-- A heap write that keeps identifier and value leaves the (ID, Value) view
of every ref unchanged. -/
theorem heapSet_id_value (h : List (NodeRecord V)) (i : Nat)
    (f : NodeRecord V → NodeRecord V)
    (hf : ∀ rc, (f rc).ID = rc.ID ∧ (f rc).Value = rc.Value) :
    ∀ r : Nat, ((heapSet h i f)[r]?).map (fun (q : NodeRecord V) => (q.ID, q.Value))
      = (h[r]?).map (fun (q : NodeRecord V) => (q.ID, q.Value)) := by
  intro r
  by_cases hr : i = r
  · subst hr
    cases hc : h[i]? with
    | none => simp [heapSet, hc]
    | some rc => simp [heapSet_getElem?_self _ _ _ _ hc, hc, (hf rc).1, (hf rc).2]
  · rw [heapSet_getElem?_ne _ _ _ _ hr]

/-- Inversion of a successful value read. -/
theorem GetValue_ok : ∀ {rc : NodeRecord V} {u : Node V},
    rc.GetValue = Except.ok u → rc.Value = some u := by
  intro rc u h
  cases rc with
  | mk rid rval rdesc =>
    cases rval with
    | none => exact Except.noConfusion h
    | some w =>
      have h' : Except.ok (ε := RuntimeErr) w = Except.ok u := h
      injection h' with hw
      simp [hw]

/-- Inversion of a successful `getNode`. -/
theorem getNode_inv {t : Tree V} {id : String} {aref : Nat} {arec : NodeRecord V}
    (h : t.getNode id = some (aref, arec)) :
    t.nodes.Load id = some aref ∧ t.heap[aref]? = some arec := by
  cases hl : t.nodes.Load id with
  | none =>
    have hn : t.getNode id = none := by simp [Tree.getNode, hl]
    rw [hn] at h
    exact Option.noConfusion h
  | some ref0 =>
    cases hh : t.heap[ref0]? with
    | none =>
      have hn : t.getNode id = none := by simp [Tree.getNode, hl, hh]
      rw [hn] at h
      exact Option.noConfusion h
    | some rec1 =>
      have heq : t.getNode id = some (ref0, rec1) := by simp [Tree.getNode, hl, hh]
      rw [heq] at h
      simp only [Option.some.injEq, Prod.mk.injEq] at h
      obtain ⟨h1, h2⟩ := h
      subst h1
      subst h2
      exact ⟨rfl, hh⟩

/-- A resolving ref in `rs` contributes its record's identifier. -/
theorem mem_idsOfRefs {heap : List (NodeRecord V)} {rs : List Nat} {r : Nat}
    {rc : NodeRecord V} (hr : r ∈ rs) (hc : heap[r]? = some rc) :
    rc.ID ∈ idsOfRefs heap rs := by
  unfold idsOfRefs
  rw [List.mem_filterMap]
  exact ⟨r, hr, by rw [hc]; rfl⟩

/-- With pairwise distinct identifiers, two refs carrying the same identifier
are the same ref. -/
theorem idsNodup_ref_inj {heap : List (NodeRecord V)} (hnd : idsNodup heap)
    {r s : Nat} {rc rs : NodeRecord V} (hr : heap[r]? = some rc)
    (hs : heap[s]? = some rs) (hid : rc.ID = rs.ID) : r = s := by
  have h1 : (heap.map NodeRecord.ID)[r]? = some rc.ID := by
    rw [List.getElem?_map, hr]
    rfl
  have h2 : (heap.map NodeRecord.ID)[s]? = some rs.ID := by
    rw [List.getElem?_map, hs]
    rfl
  have hlt : r < (heap.map NodeRecord.ID).length := by
    rw [List.length_map]
    exact lt_of_getElem?_some hr
  exact List.getElem?_inj hlt hnd (by rw [h1, h2, hid])

/-- If removed identifiers are exactly those of refs in `S`, no record
outside `S` keeps children inside `S`, the index no longer resolves removed
keys and still points at records carrying the key, then no `Descendants`
result mentions a removed identifier. -/
theorem descendants_exclude (t' : Tree V) (S : List Nat) (removed : List String)
    (tH : List (NodeRecord V))
    (hidmap : ∀ r : Nat, (t'.heap[r]?).map (fun (q : NodeRecord V) => (q.ID, q.Value))
      = (tH[r]?).map (fun (q : NodeRecord V) => (q.ID, q.Value)))
    (hcl : ∀ r (rc : NodeRecord V), r ∉ S → t'.heap[r]? = some rc →
      ∀ c ∈ rc.Descendants, c ∉ S)
    (hnone : ∀ k ∈ removed, t'.nodes.Load k = none)
    (hback : ∀ (k : String) (aref : Nat), t'.nodes.Load k = some aref →
      (tH[aref]?).map NodeRecord.ID = some k)
    (hrem : ∀ (r : Nat) (rc : NodeRecord V), r ∉ S → tH[r]? = some rc →
      rc.ID ∉ removed)
    (hremS : ∀ (r : Nat) (rc : NodeRecord V), r ∈ S → tH[r]? = some rc →
      rc.ID ∈ removed)
    (hvals : valuesMatchIds tH) :
    ∀ (m : Node V) (res : List (Node V) × Bool),
      (t'.Descendants m).1 = .ok res → ∀ u ∈ res.1, u.id ∉ removed := by
  intro m res hres u hu
  cases hg : t'.getNode m.id with
  | none =>
    simp only [Tree.Descendants, hg] at hres
    injection hres with hres
    rw [← hres] at hu
    simp at hu
  | some pr =>
    obtain ⟨aref, arec⟩ := pr
    simp only [Tree.Descendants, hg] at hres
    obtain ⟨hload, hheap⟩ := getNode_inv hg
    have hmid : m.id ∉ removed := by
      intro hmem
      rw [hnone m.id hmem] at hload
      exact Option.noConfusion hload
    obtain ⟨recA, hrecA, hrecAid⟩ : ∃ recA, tH[aref]? = some recA ∧ recA.ID = m.id := by
      have := hback m.id aref hload
      cases hc : tH[aref]? with
      | none => rw [hc] at this; exact Option.noConfusion this
      | some recA =>
        rw [hc] at this
        simp only [Option.map_some', Option.some.injEq] at this
        exact ⟨recA, rfl, this⟩
    have harefS : aref ∉ S := by
      intro hmem
      exact hmid (hrecAid ▸ hremS aref recA hmem hrecA)
    have havoid := collect_avoids (t'.heap.length + 1) t'.heap aref harefS hcl
    cases hmap : (collectDesc t'.heap (t'.heap.length + 1) aref).mapM
        (fun r => match t'.heap[r]? with
          | some rec => rec.GetValue
          | none => Except.error RuntimeErr.nilPointer) with
    | error e => rw [hmap] at hres; exact Except.noConfusion hres
    | ok vals =>
      rw [hmap] at hres
      injection hres with hres
      rw [← hres] at hu
      have humem : u ∈ vals := (List.perm_insertionSort _ vals).mem_iff.mp hu
      obtain ⟨r, hrmem, hru⟩ := mapM_ok_mem _ vals hmap u humem
      have hrS : r ∉ S := havoid r hrmem
      cases hc : t'.heap[r]? with
      | none => rw [hc] at hru; exact Except.noConfusion hru
      | some rc =>
        rw [hc] at hru
        have hval : rc.Value = some u := GetValue_ok hru
        obtain ⟨rt, hrt, hrtid, hrtval⟩ :
            ∃ rt, tH[r]? = some rt ∧ rt.ID = rc.ID ∧ rt.Value = rc.Value := by
          have := hidmap r
          rw [hc] at this
          cases hd : tH[r]? with
          | none => rw [hd] at this; exact Option.noConfusion this
          | some rt =>
            rw [hd] at this
            simp only [Option.map_some', Option.some.injEq, Prod.mk.injEq] at this
            exact ⟨rt, rfl, this.1.symm, this.2.symm⟩
        have huid : u.id = rt.ID := by
          have hm := hvals rt (by
            obtain ⟨hlt, hget⟩ := List.getElem?_eq_some.mp hrt
            exact hget ▸ List.getElem_mem hlt)
          rw [hrtval, hval] at hm
          simp only [Option.map_some', Option.some.injEq] at hm
          exact hm
        rw [huid]
        exact hrem r rt hrS hrt

/-- C4: for a tree satisfying the structural invariants `Add` maintains, a
`Delete` of an indexed node removes exactly the node plus its descendants:
it succeeds, the size drops by `1 + |descendants at deletion time|`, `Find`
on every removed identifier reports not-found, every other index entry is
untouched, no `Descendants` query on the resulting tree mentions a removed
identifier, and `Delete` of an identifier absent from the index fails with
`NotFound` and returns the tree unchanged. -/
theorem delete_removes_exactly_subtree (t : Tree V) (n : Node V) (nref : Nat)
    (rec0 : NodeRecord V)
    (hget : t.getNode n.id = some (nref, rec0))
    (hwf : wfSubtree t.heap (t.heap.length + 1) nref = true)
    (hnd : (preS t.heap (t.heap.length + 1) nref).Nodup)
    (hids : idsNodup t.heap)
    (hchild : childrenAvoid t.heap (preS t.heap (t.heap.length + 1) nref)
      (prefOf t n.id))
    (hpref : ∀ p, prefOf t n.id = some p → p ∉ preS t.heap (t.heap.length + 1) nref)
    (hvals : valuesMatchIds t.heap)
    (hidx : indexBacked t) :
    (t.Delete n).1 = none ∧
    (t.Delete n).2.size
      = t.size - (1 + (collectDesc t.heap (t.heap.length + 1) nref).length) ∧
    (∀ k ∈ idsOfRefs t.heap (preS t.heap (t.heap.length + 1) nref),
      ((t.Delete n).2.Find k).1 = .ok (none, false)) ∧
    (∀ k, k ∉ idsOfRefs t.heap (preS t.heap (t.heap.length + 1) nref) →
      (t.Delete n).2.nodes.Load k = t.nodes.Load k) ∧
    (∀ (m : Node V) (res : List (Node V) × Bool),
      ((t.Delete n).2.Descendants m).1 = .ok res →
      ∀ u ∈ res.1, u.id ∉ idsOfRefs t.heap (preS t.heap (t.heap.length + 1) nref)) ∧
    (∀ (t2 : Tree V) (m : Node V), t2.getNode m.id = none →
      t2.Delete m = (some .notFound, t2)) := by
  obtain ⟨t1, hdel, hlen1, hag1, hsize1, hnodes1, hparents1, hidval1, hclwipe⟩ :
      ∃ t1 : Tree V,
        t.Delete n = (none, deleteChildrenAux (t.heap.length + 1) t1 nref) ∧
        t1.heap.length = t.heap.length ∧
        (∀ r ∈ preS t.heap (t.heap.length + 1) nref, t1.heap[r]? = t.heap[r]?) ∧
        t1.size = t.size ∧
        t1.nodes = t.nodes ∧
        t1.parents = t.parents ∧
        (∀ r : Nat, (t1.heap[r]?).map (fun (q : NodeRecord V) => (q.ID, q.Value))
          = (t.heap[r]?).map (fun (q : NodeRecord V) => (q.ID, q.Value))) ∧
        (∀ r (rc : NodeRecord V), r ∉ preS t.heap (t.heap.length + 1) nref →
          t1.heap[r]? = some rc → ∀ c ∈ rc.Descendants,
            c ∉ preS t.heap (t.heap.length + 1) nref) := by
    cases hpl : t.parents.Load n.id with
    | none =>
      have hpo : prefOf t n.id = none := by simp [prefOf, hpl]
      refine ⟨t, by simp [Tree.Delete, hget, hpl], rfl, fun r _ => rfl, rfl, rfl,
        rfl, fun r => rfl, ?_⟩
      intro r rc hrS hrc c hc
      have hlt : r < t.heap.length := lt_of_getElem?_some hrc
      have := hchild r (List.mem_range.mpr hlt) (by rw [hpo]; exact fun hx => Option.noConfusion hx) hrS c
      rw [recChildren] at this
      rw [hrc] at this
      exact this hc
    | some chain =>
      cases chain with
      | nil =>
        have hpo : prefOf t n.id = none := by simp [prefOf, hpl]
        refine ⟨t, by simp [Tree.Delete, hget, hpl], rfl, fun r _ => rfl, rfl, rfl,
          rfl, fun r => rfl, ?_⟩
        intro r rc hrS hrc c hc
        have hlt : r < t.heap.length := lt_of_getElem?_some hrc
        have := hchild r (List.mem_range.mpr hlt) (by rw [hpo]; exact fun hx => Option.noConfusion hx) hrS c
        rw [recChildren] at this
        rw [hrc] at this
        exact this hc
      | cons pid prest =>
        cases hgp : t.getNode pid with
        | none =>
          have hpo : prefOf t n.id = none := by simp [prefOf, hpl, hgp]
          refine ⟨t, by simp [Tree.Delete, hget, hpl, hgp], rfl, fun r _ => rfl,
            rfl, rfl, rfl, fun r => rfl, ?_⟩
          intro r rc hrS hrc c hc
          have hlt : r < t.heap.length := lt_of_getElem?_some hrc
          have := hchild r (List.mem_range.mpr hlt) (by rw [hpo]; exact fun hx => Option.noConfusion hx) hrS c
          rw [recChildren] at this
          rw [hrc] at this
          exact this hc
        | some pp =>
          obtain ⟨pref, prec⟩ := pp
          have hpo : prefOf t n.id = some pref := by simp [prefOf, hpl, hgp]
          have hpS : pref ∉ preS t.heap (t.heap.length + 1) nref := hpref pref hpo
          have hpheap : t.heap[pref]? = some prec := (getNode_inv hgp).2
          refine ⟨{ t with heap := heapSet t.heap pref (fun r => { r with Descendants := ([] : List Nat) }) }, ?_, heapSet_length _ _ _, ?_, rfl, rfl, rfl, heapSet_id_value _ _ _ (fun rc => ⟨rfl, rfl⟩), ?_⟩
          · simp [Tree.Delete, hget, hpl, hgp, heapSet_length]
          · intro r hr
            exact heapSet_getElem?_ne _ _ _ _ (fun hx => hpS (hx ▸ hr))
          · intro r rc hrS hrc c hc
            by_cases hrp : r = pref
            · subst hrp
              rw [heapSet_getElem?_self _ _ _ _ hpheap] at hrc
              injection hrc with hrc
              rw [← hrc] at hc
              simp at hc
            · rw [heapSet_getElem?_ne _ _ _ _ (fun hx => hrp hx.symm)] at hrc
              have hlt : r < t.heap.length := lt_of_getElem?_some hrc
              have := hchild r (List.mem_range.mpr hlt)
                (by rw [hpo]; simp; exact fun hx => hrp hx) hrS c
              rw [recChildren] at this
              rw [hrc] at this
              exact this hc
  obtain ⟨hcol1, hwfeq⟩ := collectDesc_congr (t.heap.length + 1) t.heap t1.heap nref hag1
  have hpre1 : preS t1.heap (t.heap.length + 1) nref
      = preS t.heap (t.heap.length + 1) nref := by
    simp only [preS, hcol1]
  have E := deleteChildrenAux_effect (t.heap.length + 1) t1 nref
    (by rw [hwfeq]; exact hwf) (by rw [hpre1]; exact hnd)
  rw [hpre1] at E
  rw [idsOfRefs_congr hag1] at E
  refine ⟨by rw [hdel], ?_, ?_, ?_, ?_, ?_⟩
  · rw [hdel]
    have hs := E.hsize
    rw [hsize1] at hs
    rw [hs]
    have hl : (preS t.heap (t.heap.length + 1) nref).length
        = (collectDesc t.heap (t.heap.length + 1) nref).length + 1 := by
      simp [preS]
    rw [hl]
    push_cast
    ring
  · intro k hk
    rw [hdel]
    have hl : (deleteChildrenAux (t.heap.length + 1) t1 nref).nodes.Load k = none := by
      rw [E.hnodes k]
      simp [hk]
    simp [Tree.Find, Tree.getNode, hl]
  · intro k hk
    rw [hdel]
    rw [E.hnodes k]
    simp [hk, hnodes1]
  · intro m res hres u hu
    rw [hdel] at hres
    refine descendants_exclude (deleteChildrenAux (t.heap.length + 1) t1 nref)
      (preS t.heap (t.heap.length + 1) nref)
      (idsOfRefs t.heap (preS t.heap (t.heap.length + 1) nref)) t.heap
      ?_ ?_ ?_ ?_ ?_ ?_ hvals m res hres u hu
    · intro r
      rw [E.hid r, hidval1 r]
    · intro r rc hrS hrc c hc
      rw [E.hframe r hrS] at hrc
      exact hclwipe r rc hrS hrc c hc
    · intro k hk
      rw [E.hnodes k]
      simp [hk]
    · intro k aref hload
      by_cases hk : k ∈ idsOfRefs t.heap (preS t.heap (t.heap.length + 1) nref)
      · rw [E.hnodes k] at hload
        simp [hk] at hload
      · rw [E.hnodes k] at hload
        rw [if_neg hk, hnodes1] at hload
        exact hidx (k, aref) (Load_mem_entries t.nodes k aref hload)
    · intro r rc hrS hrc hmem
      obtain ⟨sref, hsS, hsmap⟩ := List.mem_filterMap.mp hmem
      cases hsc : t.heap[sref]? with
      | none => rw [hsc] at hsmap; exact Option.noConfusion hsmap
      | some recS =>
        rw [hsc] at hsmap
        simp only [Option.map_some', Option.some.injEq] at hsmap
        exact hrS (idsNodup_ref_inj hids hrc hsc hsmap.symm ▸ hsS)
    · intro r rc hrS hrc
      exact mem_idsOfRefs hrS hrc
  · intro t2 m hm
    simp [Tree.Delete, hm]

/-- Witness for `delete_removes_exactly_subtree`: in root → a → {b, c},
deleting `a` removes a, b and c, drops the size from 4 to 1, and leaves the
root's index entry alone. -/
theorem delete_removes_exactly_subtree_witness :
    (Ex.tFam.getNode Ex.a.id = some (1, ⟨"a", some Ex.a, [2, 3]⟩)) ∧
    ((Ex.tFam.Delete Ex.a).1 = none ∧
      (Ex.tFam.Delete Ex.a).2.size = Ex.tFam.size - (1 + 2) ∧
      ((Ex.tFam.Delete Ex.a).2.Find "b").1 = .ok (none, false) ∧
      ((Ex.tFam.Delete Ex.a).2.Find "c").1 = .ok (none, false) ∧
      (Ex.tFam.Delete Ex.a).2.nodes.Load "r" = Ex.tFam.nodes.Load "r") := by
  have hpo : prefOf Ex.tFam Ex.a.id = some 0 := by decide
  have hp : ∀ p, prefOf Ex.tFam Ex.a.id = some p →
      p ∉ preS Ex.tFam.heap (Ex.tFam.heap.length + 1) 1 := by
    intro p hpp
    rw [hpo] at hpp
    injection hpp with hq
    subst hq
    decide
  have h := delete_removes_exactly_subtree Ex.tFam Ex.a 1 ⟨"a", some Ex.a, [2, 3]⟩
    (by decide) (by decide) (by decide) (by unfold idsNodup; decide)
    (by unfold childrenAvoid; decide) hp (by unfold valuesMatchIds; decide)
    (by unfold indexBacked; decide)
  have hc : (collectDesc Ex.tFam.heap (Ex.tFam.heap.length + 1) 1).length = 2 := by
    decide
  refine ⟨by decide, h.1, ?_, ?_, ?_, ?_⟩
  · rw [h.2.1, hc]
    norm_num
  · exact h.2.2.1 "b" (by decide)
  · exact h.2.2.1 "c" (by decide)
  · exact h.2.2.2.1 "r" (by decide)

end Gotree
